import Mathlib

set_option linter.unusedSectionVars false

/-!
# Verification of the `status` terminal status-block renderer

This file gives a shallow embedding of the two `StatusManager` variants of
the repository (the fixed-size, integer-indexed variant and the dynamic,
keyed variant), of the pure helper `getCommonPrefixLength`, and of a small
ANSI terminal screen model, and proves properties of the embedded code.

Terminal output is modelled as a trace of abstract tokens (`Out`), one per
escape sequence or raw write that the source emits.  JavaScript `Map`s are
modelled as insertion-ordered association lists, JavaScript string
`substring` by `jsSubstring` (with the argument clamping and swapping
semantics of the JS builtin), and JavaScript truthiness of a possibly
absent string (`if (prev)`) by an explicit test against `none` and `""`.
-/

/-- One unit of terminal output, mirroring the escape sequences the source
writes to `process.stdout`.  `forward` marks a call forwarded to one of the
original console functions (the external logging collaborator). -/
inductive Out : Type
  | moveCursor (row : Int) (col : Nat)
  | clearLine
  | clearToEOL
  | write (s : String)
  | newline
  | forward (msg : String)
deriving DecidableEq, Repr

/-- Whether one of the three console entry points currently holds the
original function or the intercepting wrapper. -/
inductive CSlot : Type
  | original
  | wrapped
deriving DecidableEq, Repr

/-- The three process-wide console entry points (`log`, `error`, `warn`). -/
structure Console : Type where
  log : CSlot
  error : CSlot
  warn : CSlot
deriving DecidableEq, Repr

def Console.allOriginal : Console := ⟨.original, .original, .original⟩

def Console.allWrapped : Console := ⟨.wrapped, .wrapped, .wrapped⟩

/-- The terminal geometry the collaborator reports: `process.stdout.rows`
and `process.stdout.columns` (the latter may be unavailable). -/
structure Term : Type where
  rows : Nat
  columns : Option Nat
deriving DecidableEq, Repr

/-- The effective width used by the source: `process.stdout.columns || 80`.
JS `||` also replaces a reported `0` (falsy) by `80`. -/
def effWidth (t : Term) : Nat :=
  match t.columns with
  | none => 80
  | some c => if c = 0 then 80 else c

/-- JavaScript `s.substring(a, b)`: both indices are clamped to
`[0, s.length]` and swapped when out of order, then the characters between
them are returned. -/
def jsSubstring (s : String) (a b : Nat) : String :=
  let a' := min a s.length
  let b' := min b s.length
  String.mk ((s.data.drop (min a' b')).take (max a' b' - min a' b'))

/-- Character-by-character scan of the source's `getCommonPrefixLength`
loop: count the leading pairwise-equal characters, stopping at the first
mismatch or at the end of the shorter list. -/
def commonPrefixLengthAux : List Char → List Char → Nat
  | x :: xs, y :: ys => if x = y then commonPrefixLengthAux xs ys + 1 else 0
  | _, _ => 0

/-- `getCommonPrefixLength(a, b)` from the source: the number of characters
that `a` and `b` have in common at their start. -/
def getCommonPrefixLength (a b : String) : Nat :=
  commonPrefixLengthAux a.data b.data

/-- `moveCursorToLine(line, column)`: emit the absolute cursor move
`ESC[rows - line - 1 ; column + 1 H` (both variants compute the target row
as `process.stdout.rows - line - 1`; the fixed variant always passes
column 0). -/
def Term.moveCursorToLine (t : Term) (line : Int) (col : Nat) : List Out :=
  [Out.moveCursor ((t.rows : Int) - line - 1) (col + 1)]

/-- `moveCursorToBottom()`: emit `ESC[rows;1H`. -/
def Term.moveCursorToBottom (t : Term) : List Out :=
  [Out.moveCursor (t.rows : Int) 1]

/-- `Map.get` on an insertion-ordered association list. -/
def mget {K V : Type} [DecidableEq K] : List (K × V) → K → Option V
  | [], _ => none
  | p :: ps, k => if p.1 = k then some p.2 else mget ps k

/-- `Map.set` on an insertion-ordered association list: replace the value
in place when the key is present, otherwise append the binding at the
end (JS `Map` iteration order). -/
def mset {K V : Type} [DecidableEq K] : List (K × V) → K → V → List (K × V)
  | [], k, v => [(k, v)]
  | p :: ps, k, v => if p.1 = k then (k, v) :: ps else p :: mset ps k v

/-- State of the dynamic keyed `StatusManager<K>` of the source: the two
insertion-ordered maps, the dirty flag, and the three console slots (which
the manager swaps in `start`/`stop`). -/
structure DynState (K : Type) : Type where
  statusLines : List (K × String)
  lineNumbers : List (K × Nat)
  dirty : Bool
  console : Console
deriving DecidableEq, Repr

section DynDefs

variable {K : Type} [DecidableEq K]

/-- `numLines`: current number of entries, `this.statusLines.size`. -/
def DynState.numLines (s : DynState K) : Nat :=
  s.statusLines.length

/-- `keys`: the keys in the order they map to line numbers
(`this.lineNumbers.keys()`). -/
def DynState.keys (s : DynState K) : List K :=
  s.lineNumbers.map Prod.fst

/-- `moveCursorToTop()`: move to block line `numLines - 1` (JS arithmetic,
so `-1` when the block is empty). -/
def DynState.moveCursorToTop (t : Term) (s : DynState K) : List Out :=
  t.moveCursorToLine ((s.numLines : Int) - 1) 0

/-- `clearLines()`: for `line = numLines; --line >= 0;` move to the line and
erase it. -/
def DynState.clearLines (t : Term) (s : DynState K) : List Out :=
  ((List.range s.numLines).reverse).flatMap
    (fun line => t.moveCursorToLine (line : Int) 0 ++ [Out.clearLine])

/-- `writeStatusHere(key, offset)`: clear the whole line when `offset == 0`,
write `statusLines.get(key) || ''` through JS
`substring(offset, (columns || 80) - 1)`, and erase to end of line when
`offset > 0`. -/
def DynState.writeStatusHere (t : Term) (s : DynState K) (key : K)
    (offset : Nat) : List Out :=
  (if offset = 0 then [Out.clearLine] else [])
    ++ [Out.write (jsSubstring ((mget s.statusLines key).getD "") offset (effWidth t - 1))]
    ++ (if 0 < offset then [Out.clearToEOL] else [])

/-- `updateSingleLine(key, offset)`: when the key has a line number, move
there (at the column offset) and write the status. -/
def DynState.updateSingleLine (t : Term) (s : DynState K) (key : K)
    (offset : Nat) : List Out :=
  match mget s.lineNumbers key with
  | some line => t.moveCursorToLine (line : Int) offset ++ s.writeStatusHere t key offset
  | none => []

/-- `redrawAllLines(fromThisSpot)`: optionally move to the top of the block,
emit `numLines` newlines to ensure the space exists, redraw every key in
line-number insertion order, and clear the dirty flag. -/
def DynState.redrawAllLines (t : Term) (s : DynState K) (fromThisSpot : Bool) :
    DynState K × List Out :=
  ({ s with dirty := false },
   (if fromThisSpot then [] else s.moveCursorToTop t)
     ++ List.replicate s.numLines Out.newline
     ++ s.keys.flatMap (fun k => s.updateSingleLine t k 0))

/-- The branch of `update` taken when `statusLines.get(key)` is falsy (the
key is new, or stores the empty string): redraw in place if dirty, record
`numLines` as the key's line number, grow the block by one physical row,
mark dirty, store the content, redraw everything (not from this spot), and
park the cursor at the bottom. -/
def DynState.updateFresh (t : Term) (s : DynState K) (key : K)
    (content : String) : DynState K × List Out :=
  let oa : List Out := if s.dirty then (s.redrawAllLines t true).2 else []
  let sa : DynState K := if s.dirty then (s.redrawAllLines t true).1 else s
  let sb : DynState K := { sa with lineNumbers := mset sa.lineNumbers key sa.numLines }
  let sc : DynState K := { sb with statusLines := mset sb.statusLines key content, dirty := true }
  ((sc.redrawAllLines t false).1,
   oa ++ t.moveCursorToBottom ++ [Out.newline]
      ++ (sc.redrawAllLines t false).2 ++ t.moveCursorToBottom)

/-- The branch of `update` taken when the stored content is truthy and
differs from the new content: store the content, then either redraw
everything in place (if dirty) or patch the single line starting at the
common-prefix offset, and park the cursor at the bottom. -/
def DynState.updatePatch (t : Term) (s : DynState K) (key : K)
    (content prev : String) : DynState K × List Out :=
  let offset := getCommonPrefixLength prev content
  let s1 : DynState K := { s with statusLines := mset s.statusLines key content }
  if s1.dirty then
    ((s1.redrawAllLines t true).1, (s1.redrawAllLines t true).2 ++ t.moveCursorToBottom)
  else
    (s1, s1.updateSingleLine t key offset ++ t.moveCursorToBottom)

/-- `update(key, content)` of the dynamic variant.  `if (prev)` in the
source tests JS truthiness, so a stored empty string takes the same branch
as an absent key. -/
def DynState.update (t : Term) (s : DynState K) (key : K) (content : String) :
    DynState K × List Out :=
  match mget s.statusLines key with
  | some prev =>
      if prev = "" then s.updateFresh t key content
      else if prev = content then (s, [])
      else s.updatePatch t key content prev
  | none => s.updateFresh t key content

/-- The wrapper installed by `interceptConsole`, called with a log message:
when the block is clean it first clears every block line, moves to the top
and sets the dirty flag; in every case it then forwards to the original
function. -/
def DynState.interceptConsole (t : Term) (s : DynState K) (msg : String) :
    DynState K × List Out :=
  if s.dirty then (s, [Out.forward msg])
  else ({ s with dirty := true },
        s.clearLines t ++ s.moveCursorToTop t ++ [Out.forward msg])

/-- `start()` of the dynamic variant: trap the three console functions. -/
def DynState.start (s : DynState K) : DynState K :=
  { s with console := Console.allWrapped }

/-- `stop()`: restore the three original console functions and move the
cursor to the bottom of the block. -/
def DynState.stop (t : Term) (s : DynState K) : DynState K × List Out :=
  ({ s with console := Console.allOriginal }, t.moveCursorToBottom)

/-- The state of a freshly constructed dynamic `StatusManager`. -/
def dynInit : DynState K :=
  ⟨[], [], false, Console.allOriginal⟩

/-- A public operation on the dynamic manager, for reasoning about whole
call sequences. -/
inductive DynOp (K : Type) : Type
  | update (k : K) (c : String)
  | log (msg : String)
  | start
  | stop
deriving DecidableEq, Repr

/-- A burst of consecutive intercepted log calls: thread the state through
`interceptConsole` and concatenate the emitted output. -/
def logsRun (t : Term) (s : DynState K) : List String → DynState K × List Out
  | [] => (s, [])
  | m :: ms =>
    let r1 := s.interceptConsole t m
    let r2 := logsRun t r1.1 ms
    (r2.1, r1.2 ++ r2.2)

/-- The well-formedness invariant of the dynamic store under non-empty
contents: both maps bind the same keys in the same insertion order, the
line numbers are exactly `0, 1, …, numLines - 1` in that order, and every
stored content is non-empty. -/
def DynInv (s : DynState K) : Prop :=
  s.statusLines.map Prod.fst = s.lineNumbers.map Prod.fst ∧
  s.lineNumbers.map Prod.snd = List.range s.statusLines.length ∧
  ∀ q ∈ s.statusLines, q.2 ≠ ""

/-- State transition of one public operation.  A `log` call goes through
the intercepting wrapper exactly when `console.log` currently holds it. -/
def runOp (t : Term) (s : DynState K) : DynOp K → DynState K
  | .update k c => (s.update t k c).1
  | .log m => if s.console.log = CSlot.wrapped then (s.interceptConsole t m).1 else s
  | .start => s.start
  | .stop => (s.stop t).1

/-- Run a sequence of public operations. -/
def runOps (t : Term) (s : DynState K) (ops : List (DynOp K)) : DynState K :=
  ops.foldl (runOp t) s

/-- `true` for operations whose update content is non-empty (the side
condition under which the dynamic variant's truthiness test behaves like a
presence test). -/
def opOk : DynOp K → Bool
  | .update _ c => decide (c ≠ "")
  | _ => true

end DynDefs

/-- State of the fixed-size `StatusManager(totalLines)` of the source.  The
`lines` array is modelled as an index-keyed association list (`lines[i] =
content` writes, `lines[i] || ''` reads). -/
structure FixedState : Type where
  lines : List (Nat × String)
  totalLines : Nat
  dirty : Bool
  console : Console
deriving DecidableEq, Repr

/-- `clearLines()` of the fixed variant: move to each of the `totalLines`
block lines in order and erase it. -/
def FixedState.clearLines (t : Term) (s : FixedState) : List Out :=
  (List.range s.totalLines).flatMap
    (fun i => t.moveCursorToLine (i : Int) 0 ++ [Out.clearLine])

/-- The text the fixed variant renders for block line `i`:
`(lines[lineIndex] || '').substring(0, (columns || 80) - 1)`. -/
def fixedTrunc (t : Term) (s : FixedState) (i : Nat) : String :=
  jsSubstring ((mget s.lines i).getD "") 0 (effWidth t - 1)

/-- `writeStatusLine(lineIndex)`: clear the line, then write the truncated
content. -/
def FixedState.writeStatusLine (t : Term) (s : FixedState) (i : Nat) : List Out :=
  [Out.clearLine, Out.write (fixedTrunc t s i)]

/-- `updateSingleLine(lineIndex)` of the fixed variant. -/
def FixedState.updateSingleLine (t : Term) (s : FixedState) (i : Nat) : List Out :=
  t.moveCursorToLine (i : Int) 0 ++ s.writeStatusLine t i

/-- The drawing loop of the fixed variant's `redrawAllLines`: for each of
the first `n` block lines, move to it and rewrite it. -/
def fixedDrawOuts (t : Term) (s : FixedState) (n : Nat) : List Out :=
  (List.range n).flatMap (fun i => t.moveCursorToLine (i : Int) 0 ++ s.writeStatusLine t i)

/-- `redrawAllLines()` of the fixed variant: `totalLines` newlines to ensure
the space exists, then move to and rewrite every line, then clear the dirty
flag. -/
def FixedState.redrawAllLines (t : Term) (s : FixedState) : FixedState × List Out :=
  ({ s with dirty := false },
   List.replicate s.totalLines Out.newline ++ fixedDrawOuts t s s.totalLines)

/-- `update(lineIndex, content)` of the fixed variant: throw on an
out-of-range index (modelled as the third component carrying the error
message, with the state and output of the first two components untouched),
otherwise store the full content and either redraw everything (if dirty) or
patch the single line. -/
def FixedState.update (t : Term) (s : FixedState) (i : Int) (c : String) :
    FixedState × List Out × Option String :=
  if i < 0 ∨ (s.totalLines : Int) ≤ i then (s, [], some "Line index out of range")
  else
    let s1 : FixedState := { s with lines := mset s.lines i.toNat c }
    if s1.dirty then ((s1.redrawAllLines t).1, (s1.redrawAllLines t).2, none)
    else (s1, s1.updateSingleLine t i.toNat, none)

/-- The wrapper installed by `interceptConsole` in the fixed variant: clear
all block lines and set the dirty flag when clean, then forward. -/
def FixedState.interceptConsole (t : Term) (s : FixedState) (msg : String) :
    FixedState × List Out :=
  if s.dirty then (s, [Out.forward msg])
  else ({ s with dirty := true }, s.clearLines t ++ [Out.forward msg])

/-- `start()` of the fixed variant: fill `lines` with `totalLines` empty
strings, print `totalLines + 1` blank lines through the still-original
console, then trap the console functions. -/
def FixedState.start (s : FixedState) : FixedState × List Out :=
  ({ s with lines := (List.range s.totalLines).map (fun i => (i, "")),
            console := Console.allWrapped },
   List.replicate (s.totalLines + 1) (Out.forward ""))

/-- `stop()` of the fixed variant. -/
def FixedState.stop (t : Term) (s : FixedState) : FixedState × List Out :=
  ({ s with console := Console.allOriginal }, t.moveCursorToBottom)

/-- A terminal screen: the text of every row (index growing downwards, row
`rows` being the bottom row; the text is the list of characters from
column 1), the cursor row, and the 0-based cursor column. -/
structure Screen : Type where
  lines : Int → List Char
  curRow : Int
  curCol : Nat

/-- Place `s` on `row` starting at 0-based column `c`, padding with spaces
when the row is shorter than `c`. -/
def writeChars (row : List Char) (c : Nat) (s : List Char) : List Char :=
  let row' := row ++ List.replicate (c - row.length) ' '
  row'.take c ++ s ++ row'.drop (c + s.length)

/-- Raw text output at the cursor (no wrapping is modelled; every write the
renderer emits fits the row). -/
def Screen.doWrite (scr : Screen) (s : String) : Screen :=
  { scr with
      lines := fun r => if r = scr.curRow then writeChars (scr.lines scr.curRow) scr.curCol s.data else scr.lines r,
      curCol := scr.curCol + s.length }

/-- A newline on a terminal of height `R`: scroll everything up one row when
the cursor is on the bottom row, otherwise move the cursor down; either way
the cursor returns to column 1. -/
def Screen.doNewline (R : Nat) (scr : Screen) : Screen :=
  if (R : Int) ≤ scr.curRow then
    { lines := fun r => if r = (R : Int) then [] else scr.lines (r + 1),
      curRow := (R : Int), curCol := 0 }
  else
    { scr with curRow := scr.curRow + 1, curCol := 0 }

/-- Interpret one output token on a screen of height `R`.  `ESC[r;cH` places
the cursor absolutely, `ESC[2K` erases the current row, `ESC[0K` erases from
the cursor to the end of the row, and a forwarded log message prints its
text followed by a newline. -/
def applyOut (R : Nat) (scr : Screen) : Out → Screen
  | .moveCursor r c => { scr with curRow := r, curCol := c - 1 }
  | .clearLine => { scr with lines := fun r => if r = scr.curRow then [] else scr.lines r }
  | .clearToEOL =>
      { scr with lines := fun r => if r = scr.curRow then (scr.lines scr.curRow).take scr.curCol else scr.lines r }
  | .write s => scr.doWrite s
  | .newline => Screen.doNewline R scr
  | .forward m => Screen.doNewline R (scr.doWrite m)

/-- Interpret a whole output trace. -/
def applyOuts (R : Nat) (scr : Screen) (os : List Out) : Screen :=
  os.foldl (applyOut R) scr

section Lemmas

variable {K V : Type} [DecidableEq K]

theorem mget_mset_self (m : List (K × V)) (k : K) (v : V) :
    mget (mset m k v) k = some v := by
  induction m with
  | nil => simp [mget, mset]
  | cons p ps ih =>
    by_cases h : p.1 = k
    · simp [mget, mset, h]
    · simp [mget, mset, h, ih]

theorem mget_mset_ne (m : List (K × V)) {k k' : K} (h : k' ≠ k) (v : V) :
    mget (mset m k v) k' = mget m k' := by
  induction m with
  | nil => simp [mget, mset, Ne.symm h]
  | cons p ps ih =>
    by_cases hp : p.1 = k
    · have h2 : ¬ p.1 = k' := by rw [hp]; exact Ne.symm h
      simp [mset, mget, hp, h2, Ne.symm h]
    · simp [mset, mget, hp, ih, h]

theorem mset_of_mget_none {m : List (K × V)} {k : K} (h : mget m k = none)
    (v : V) : mset m k v = m ++ [(k, v)] := by
  induction m with
  | nil => simp [mset]
  | cons p ps ih =>
    by_cases hp : p.1 = k
    · simp [mget, hp] at h
    · simp [mget, hp] at h
      simp [mset, hp, ih h]

theorem map_fst_mset_of_mget_some {m : List (K × V)} {k : K} {w : V}
    (h : mget m k = some w) (v : V) :
    (mset m k v).map Prod.fst = m.map Prod.fst := by
  induction m with
  | nil => simp [mget] at h
  | cons p ps ih =>
    by_cases hp : p.1 = k
    · simp [mset, hp]
    · simp [mget, hp] at h
      simp [mset, hp, ih h]

theorem length_mset_of_mget_some {m : List (K × V)} {k : K} {w : V}
    (h : mget m k = some w) (v : V) :
    (mset m k v).length = m.length := by
  induction m with
  | nil => simp [mget] at h
  | cons p ps ih =>
    by_cases hp : p.1 = k
    · simp [mset, hp]
    · simp [mget, hp] at h
      simp [mset, hp, ih h]

theorem mget_none_iff (m : List (K × V)) (k : K) :
    mget m k = none ↔ k ∉ m.map Prod.fst := by
  induction m with
  | nil => simp [mget]
  | cons p ps ih =>
    by_cases hp : p.1 = k
    · simp [mget, hp]
    · simp [mget, hp, ih]
      exact fun _ hh => hp hh.symm

theorem mem_of_mget_some {m : List (K × V)} {k : K} {v : V}
    (h : mget m k = some v) : (k, v) ∈ m := by
  induction m with
  | nil => simp [mget] at h
  | cons p ps ih =>
    rcases p with ⟨pk, pv⟩
    by_cases hp : pk = k
    · simp [mget, hp] at h
      subst hp
      subst h
      exact List.mem_cons_self _ _
    · simp [mget, hp] at h
      exact List.mem_cons_of_mem _ (ih h)

theorem mem_mset {m : List (K × V)} {k : K} {v : V} {q : K × V}
    (h : q ∈ mset m k v) : q = (k, v) ∨ q ∈ m := by
  induction m with
  | nil => simp [mset] at h; simp [h]
  | cons p ps ih =>
    by_cases hp : p.1 = k
    · simp [mset, hp] at h
      rcases h with h | h
      · left; simp [h]
      · right; exact List.mem_cons_of_mem _ h
    · simp [mset, hp] at h
      rcases h with h | h
      · right; simp [h]
      · rcases ih h with h' | h'
        · left; exact h'
        · right; exact List.mem_cons_of_mem _ h'

end Lemmas

section CommonPrefix

theorem commonPrefixLengthAux_le_left (xs ys : List Char) :
    commonPrefixLengthAux xs ys ≤ xs.length := by
  induction xs generalizing ys with
  | nil => simp [commonPrefixLengthAux]
  | cons x xs ih =>
    cases ys with
    | nil => simp [commonPrefixLengthAux]
    | cons y ys =>
      by_cases h : x = y
      · simpa [commonPrefixLengthAux, h] using ih ys
      · simp [commonPrefixLengthAux, h]

theorem commonPrefixLengthAux_le_right (xs ys : List Char) :
    commonPrefixLengthAux xs ys ≤ ys.length := by
  induction xs generalizing ys with
  | nil => simp [commonPrefixLengthAux]
  | cons x xs ih =>
    cases ys with
    | nil => simp [commonPrefixLengthAux]
    | cons y ys =>
      by_cases h : x = y
      · simpa [commonPrefixLengthAux, h] using ih ys
      · simp [commonPrefixLengthAux, h]

theorem commonPrefixLengthAux_take (xs ys : List Char) :
    xs.take (commonPrefixLengthAux xs ys) = ys.take (commonPrefixLengthAux xs ys) := by
  induction xs generalizing ys with
  | nil => simp [commonPrefixLengthAux]
  | cons x xs ih =>
    cases ys with
    | nil => simp [commonPrefixLengthAux]
    | cons y ys =>
      by_cases h : x = y
      · simp [commonPrefixLengthAux, h, ih ys]
      · simp [commonPrefixLengthAux, h]

theorem commonPrefixLengthAux_end (xs ys : List Char) :
    commonPrefixLengthAux xs ys = min xs.length ys.length ∨
      xs.get? (commonPrefixLengthAux xs ys) ≠ ys.get? (commonPrefixLengthAux xs ys) := by
  induction xs generalizing ys with
  | nil => left; simp [commonPrefixLengthAux]
  | cons x xs ih =>
    cases ys with
    | nil => left; simp [commonPrefixLengthAux]
    | cons y ys =>
      by_cases h : x = y
      · rcases ih ys with h' | h'
        · left
          simp [commonPrefixLengthAux, h, h', Nat.succ_min_succ]
        · right
          simpa [commonPrefixLengthAux, h] using h'
      · right
        simp [commonPrefixLengthAux, h]

end CommonPrefix

/-- C1: for every pair of strings, `getCommonPrefixLength` is at most the
length of the shorter string, the first `getCommonPrefixLength a b`
characters of `a` and `b` coincide, and either the result equals the
shorter length or the characters at that index differ; moreover the three
concrete examples of the specification evaluate as claimed. -/
theorem getCommonPrefixLength_correct (a b : String) :
    getCommonPrefixLength a b ≤ min a.length b.length ∧
    a.data.take (getCommonPrefixLength a b) = b.data.take (getCommonPrefixLength a b) ∧
    (getCommonPrefixLength a b = min a.length b.length ∨
      a.data.get? (getCommonPrefixLength a b) ≠ b.data.get? (getCommonPrefixLength a b)) ∧
    getCommonPrefixLength "abcxy" "abcde" = 3 ∧
    getCommonPrefixLength "" "x" = 0 ∧
    getCommonPrefixLength "abc" "abc" = 3 := by
  refine ⟨?_, ?_, ?_, by decide, by decide, by decide⟩
  · exact le_min (commonPrefixLengthAux_le_left a.data b.data)
      (commonPrefixLengthAux_le_right a.data b.data)
  · exact commonPrefixLengthAux_take a.data b.data
  · exact commonPrefixLengthAux_end a.data b.data


section DynLemmas

variable {K : Type} [DecidableEq K]

theorem update_noop (t : Term) (s : DynState K) {k : K} {c : String}
    (h : mget s.statusLines k = some c) (hc : c ≠ "") :
    s.update t k c = (s, []) := by
  simp [DynState.update, h, hc]

theorem update_eq_patch (t : Term) (s : DynState K) {k : K} {c p : String}
    (h : mget s.statusLines k = some p) (hp : p ≠ "") (hpc : p ≠ c) :
    s.update t k c = s.updatePatch t k c p := by
  simp [DynState.update, h, hp, hpc]

theorem update_eq_fresh (t : Term) (s : DynState K) {k : K} (c : String)
    (h : mget s.statusLines k = none ∨ mget s.statusLines k = some "") :
    s.update t k c = s.updateFresh t k c := by
  rcases h with h | h <;> simp [DynState.update, h]

theorem updatePatch_fst (t : Term) (s : DynState K) (k : K) (c p : String) :
    (s.updatePatch t k c p).1 =
      ⟨mset s.statusLines k c, s.lineNumbers, false, s.console⟩ := by
  by_cases h : s.dirty <;>
    simp [DynState.updatePatch, DynState.redrawAllLines, h]

theorem updateFresh_fst (t : Term) (s : DynState K) (k : K) (c : String) :
    (s.updateFresh t k c).1 =
      ⟨mset s.statusLines k c, mset s.lineNumbers k s.numLines, false, s.console⟩ := by
  by_cases h : s.dirty <;>
    simp [DynState.updateFresh, DynState.redrawAllLines, DynState.numLines, h]

theorem interceptConsole_fst (t : Term) (s : DynState K) (m : String) :
    (s.interceptConsole t m).1 = if s.dirty then s else { s with dirty := true } := by
  by_cases h : s.dirty <;> simp [DynState.interceptConsole, h]

theorem mget_update_statusLines_self (t : Term) (s : DynState K) (k : K) (c : String) :
    mget (s.update t k c).1.statusLines k = some c := by
  rcases hm : mget s.statusLines k with _ | p
  · rw [update_eq_fresh t s c (Or.inl hm), updateFresh_fst]
    exact mget_mset_self _ _ _
  · by_cases hp : p = ""
    · subst hp
      rw [update_eq_fresh t s c (Or.inr hm), updateFresh_fst]
      exact mget_mset_self _ _ _
    · by_cases hpc : p = c
      · subst hpc
        rw [update_noop t s hm hp]
        exact hm
      · rw [update_eq_patch t s hm hp hpc, updatePatch_fst]
        exact mget_mset_self _ _ _

theorem logsRun_of_dirty (t : Term) (s : DynState K) (h : s.dirty = true) :
    ∀ ms : List String, logsRun t s ms = (s, ms.map Out.forward)
  | [] => by simp [logsRun]
  | m :: ms => by
    simp [logsRun, DynState.interceptConsole, h, logsRun_of_dirty t s h ms]

theorem write_mem_redrawAllLines (t : Term) (s : DynState K) (b : Bool)
    {k : K} {L : Nat} (h : mget s.lineNumbers k = some L) :
    Out.write (jsSubstring ((mget s.statusLines k).getD "") 0 (effWidth t - 1))
      ∈ (s.redrawAllLines t b).2 := by
  have hk : k ∈ s.keys := List.mem_map.mpr ⟨(k, L), mem_of_mget_some h, rfl⟩
  have hmem : Out.write (jsSubstring ((mget s.statusLines k).getD "") 0 (effWidth t - 1))
      ∈ s.updateSingleLine t k 0 := by
    simp [DynState.updateSingleLine, h, DynState.writeStatusHere]
  simp only [DynState.redrawAllLines]
  exact List.mem_append.mpr (Or.inr (List.mem_flatMap.mpr ⟨k, hk, hmem⟩))

theorem fixed_update_err (t : Term) (s : FixedState) {i : Int} (c : String)
    (h : i < 0 ∨ (s.totalLines : Int) ≤ i) :
    s.update t i c = (s, [], some "Line index out of range") := by
  unfold FixedState.update
  rw [if_pos h]

theorem fixed_update_ok_dirty (t : Term) (s : FixedState) {i : Int} (c : String)
    (h : ¬ (i < 0 ∨ (s.totalLines : Int) ≤ i)) :
    (s.update t i c).1.dirty = false := by
  unfold FixedState.update
  rw [if_neg h]
  by_cases hd : s.dirty <;> simp [FixedState.redrawAllLines, hd]

end DynLemmas

/-- C2 counterexample: in the fixed-size variant, an `update` whose content
equals the stored content is not a no-op — with line 0 already storing
`"x"`, `update(0, "x")` emits terminal output again. -/
theorem unchanged_update_counterexample :
    (FixedState.update ⟨24, some 80⟩ ⟨[(0, "x")], 1, false, Console.allOriginal⟩ 0 "x").2.1 ≠ [] := by
  decide

/-- C2 (amended): in the dynamic variant, an `update` whose non-empty
content equals the entry's stored content is a no-op (no output, state
unchanged), and consequently a second consecutive `update(k, c)` with the
same non-empty `c` emits no output; the fixed-size variant has no such
check, and a stored empty string is treated as absent. -/
theorem unchanged_update_noop {K : Type} [DecidableEq K] (t : Term)
    (s : DynState K) (k : K) (c : String) :
    (mget s.statusLines k = some c → c ≠ "" → s.update t k c = (s, [])) ∧
    (c ≠ "" → (s.update t k c).1.update t k c = ((s.update t k c).1, [])) := by
  constructor
  · intro h hc
    exact update_noop t s h hc
  · intro hc
    exact update_noop t _ (mget_update_statusLines_self t s k c) hc

/-- C2 witness: the no-op applies at a concrete store holding `"hello"`. -/
theorem unchanged_update_noop_witness :
    (DynState.update ⟨24, some 80⟩
        (⟨[(5, "hello")], [(5, 0)], false, Console.allOriginal⟩ : DynState Nat) 5 "hello")
      = ((⟨[(5, "hello")], [(5, 0)], false, Console.allOriginal⟩ : DynState Nat), []) :=
  (unchanged_update_noop ⟨24, some 80⟩
    (⟨[(5, "hello")], [(5, 0)], false, Console.allOriginal⟩ : DynState Nat) 5 "hello").1
    (by decide) (by decide)

/-- C6: in the fixed-size variant, `update` on an out-of-range index fails
with the index-error condition, emits no terminal output and mutates no
state. -/
theorem fixed_update_out_of_range (t : Term) (s : FixedState) (i : Int)
    (c : String) (h : i < 0 ∨ (s.totalLines : Int) ≤ i) :
    s.update t i c = (s, [], some "Line index out of range") :=
  fixed_update_err t s c h

/-- C6 witness: both `update(-1, "x")` and `update(totalLines, "x")` fail
this way on a three-line manager. -/
theorem fixed_update_out_of_range_witness :
    FixedState.update ⟨24, some 80⟩ ⟨[], 3, false, Console.allOriginal⟩ (-1) "x"
        = (⟨[], 3, false, Console.allOriginal⟩, [], some "Line index out of range") ∧
    FixedState.update ⟨24, some 80⟩ ⟨[], 3, false, Console.allOriginal⟩ 3 "x"
        = (⟨[], 3, false, Console.allOriginal⟩, [], some "Line index out of range") :=
  ⟨fixed_update_out_of_range ⟨24, some 80⟩ ⟨[], 3, false, Console.allOriginal⟩ (-1) "x"
      (Or.inl (by decide)),
   fixed_update_out_of_range ⟨24, some 80⟩ ⟨[], 3, false, Console.allOriginal⟩ 3 "x"
      (Or.inr (by decide))⟩

/-- C9: `stop` succeeds on every state of either variant: it restores the
three original console entry points, emits exactly one cursor move to the
terminal's bottom row at column 1 (in particular no line-clear sequences),
and leaves the stored entries untouched. -/
theorem stop_unconditional {K : Type} [DecidableEq K] (t : Term)
    (s : DynState K) (fs : FixedState) :
    s.stop t = ({ s with console := Console.allOriginal }, [Out.moveCursor (t.rows : Int) 1]) ∧
    fs.stop t = ({ fs with console := Console.allOriginal }, [Out.moveCursor (t.rows : Int) 1]) ∧
    Out.clearLine ∉ (s.stop t).2 ∧ Out.clearToEOL ∉ (s.stop t).2 ∧
    (s.stop t).1.statusLines = s.statusLines ∧ (s.stop t).1.lineNumbers = s.lineNumbers := by
  refine ⟨rfl, rfl, ?_, ?_, rfl, rfl⟩ <;> simp [DynState.stop, Term.moveCursorToBottom]

/-- C10 counterexample: an `update` that returns normally can leave the
dirty flag set — after `start`, `update(2, "q")`, an intercepted log, the
no-op `update(2, "q")` returns with the flag still `true`. -/
theorem update_dirty_counterexample :
    (runOps ⟨24, some 80⟩ (dynInit (K := Nat))
      [.start, .update 2 "q", .log "m", .update 2 "q"]).dirty = true := by
  decide

/-- C10 (amended): every `update` that returns normally leaves the dirty
flag `false`, except the identical-content no-op of the dynamic variant,
which returns without touching any state and hence leaves the flag as it
was; in the fixed-size variant every non-throwing `update` ends with the
flag `false`. -/
theorem update_clears_dirty {K : Type} [DecidableEq K] (t : Term)
    (s : DynState K) (k : K) (c : String) (fs : FixedState) (i : Int) :
    ((fs.update t i c).2.2 = none → (fs.update t i c).1.dirty = false) ∧
    (¬ (mget s.statusLines k = some c ∧ c ≠ "") → (s.update t k c).1.dirty = false) ∧
    (mget s.statusLines k = some c → c ≠ "" → (s.update t k c).1 = s) := by
  refine ⟨?_, ?_, ?_⟩
  · intro h
    by_cases hr : i < 0 ∨ (fs.totalLines : Int) ≤ i
    · rw [fixed_update_err t fs c hr] at h
      simp at h
    · exact fixed_update_ok_dirty t fs c hr
  · intro h
    rcases hm : mget s.statusLines k with _ | p
    · rw [update_eq_fresh t s c (Or.inl hm), updateFresh_fst]
    · by_cases hp : p = ""
      · subst hp
        rw [update_eq_fresh t s c (Or.inr hm), updateFresh_fst]
      · by_cases hpc : p = c
        · subst hpc
          exact absurd ⟨hm, hp⟩ h
        · rw [update_eq_patch t s hm hp hpc, updatePatch_fst]
  · intro hm hc
    rw [update_noop t s hm hc]

/-- C10 witness: a dirty store with changed content comes out clean. -/
theorem update_clears_dirty_witness :
    (DynState.update ⟨24, some 80⟩
        (⟨[(4, "aa")], [(4, 0)], true, Console.allWrapped⟩ : DynState Nat) 4 "bb").1.dirty = false :=
  (update_clears_dirty ⟨24, some 80⟩
      (⟨[(4, "aa")], [(4, 0)], true, Console.allWrapped⟩ : DynState Nat) 4 "bb"
      ⟨[], 1, false, Console.allOriginal⟩ 0).2.1 (by decide)

section StabilityLemmas

variable {K : Type} [DecidableEq K]

theorem interceptConsole_maps (t : Term) (s : DynState K) (m : String) :
    (s.interceptConsole t m).1.statusLines = s.statusLines ∧
    (s.interceptConsole t m).1.lineNumbers = s.lineNumbers ∧
    (s.interceptConsole t m).1.console = s.console := by
  by_cases h : s.dirty <;> simp [DynState.interceptConsole, h]

theorem update_preserves_lineNumber (t : Term) (s : DynState K) {k : K}
    {p : String} (hk : mget s.statusLines k = some p) (hp : p ≠ "")
    (k' : K) (c' : String) :
    mget (s.update t k' c').1.lineNumbers k = mget s.lineNumbers k ∧
    (c' ≠ "" → ∃ p', mget (s.update t k' c').1.statusLines k = some p' ∧ p' ≠ "") := by
  rcases hm : mget s.statusLines k' with _ | q
  · have hkk : k ≠ k' := by
      intro h
      rw [h, hm] at hk
      exact Option.noConfusion hk
    rw [update_eq_fresh t s c' (Or.inl hm), updateFresh_fst]
    refine ⟨mget_mset_ne _ hkk _, fun _ => ⟨p, ?_, hp⟩⟩
    rw [mget_mset_ne _ hkk _]
    exact hk
  · by_cases hq : q = ""
    · subst hq
      have hkk : k ≠ k' := by
        intro h
        rw [h, hm] at hk
        exact hp (Option.some_injective _ hk).symm
      rw [update_eq_fresh t s c' (Or.inr hm), updateFresh_fst]
      refine ⟨mget_mset_ne _ hkk _, fun _ => ⟨p, ?_, hp⟩⟩
      rw [mget_mset_ne _ hkk _]
      exact hk
    · by_cases hqc : q = c'
      · subst hqc
        rw [update_noop t s hm hq]
        exact ⟨rfl, fun _ => ⟨p, hk, hp⟩⟩
      · rw [update_eq_patch t s hm hq hqc, updatePatch_fst]
        refine ⟨rfl, fun hc' => ?_⟩
        by_cases hkk : k = k'
        · subst hkk
          exact ⟨c', mget_mset_self _ _ _, hc'⟩
        · refine ⟨p, ?_, hp⟩
          rw [mget_mset_ne _ hkk _]
          exact hk

theorem DynInv_congr {s s' : DynState K} (h1 : s'.statusLines = s.statusLines)
    (h2 : s'.lineNumbers = s.lineNumbers) (h : DynInv s) : DynInv s' := by
  unfold DynInv at *
  rw [h1, h2]
  exact h

theorem DynInv_update (t : Term) {s : DynState K} (h : DynInv s) {k : K}
    {c : String} (hc : c ≠ "") : DynInv (s.update t k c).1 := by
  obtain ⟨ha, hb, hcn⟩ := h
  rcases hm : mget s.statusLines k with _ | q
  · rw [update_eq_fresh t s c (Or.inl hm), updateFresh_fst]
    have hkn : mget s.lineNumbers k = none := by
      rw [mget_none_iff] at hm ⊢
      rw [← ha]
      exact hm
    rw [mset_of_mget_none hm c, mset_of_mget_none hkn s.numLines]
    refine ⟨?_, ?_, ?_⟩
    · simp [ha]
    · simp only [List.map_append, List.length_append, List.map_cons, List.map_nil,
        List.length_cons, List.length_nil]
      rw [hb, DynState.numLines, List.range_succ]
    · intro q hq
      rcases List.mem_append.mp hq with h' | h'
      · exact hcn q h'
      · simp only [List.mem_singleton] at h'
        subst h'
        exact hc
  · have hq : q ≠ "" := hcn (k, q) (mem_of_mget_some hm)
    by_cases hqc : q = c
    · subst hqc
      rw [update_noop t s hm hq]
      exact ⟨ha, hb, hcn⟩
    · rw [update_eq_patch t s hm hq hqc, updatePatch_fst]
      refine ⟨?_, ?_, ?_⟩
      · rw [map_fst_mset_of_mget_some hm c]
        exact ha
      · rw [length_mset_of_mget_some hm c]
        exact hb
      · intro q' hq'
        rcases mem_mset hq' with h' | h'
        · subst h'
          exact hc
        · exact hcn q' h'

theorem DynInv_runOps (t : Term) {s : DynState K} (h : DynInv s)
    {ops : List (DynOp K)} (hops : ops.all opOk = true) :
    DynInv (runOps t s ops) := by
  induction ops generalizing s with
  | nil => exact h
  | cons op ops ih =>
    rw [List.all_cons, Bool.and_eq_true] at hops
    have hstep : DynInv (runOp t s op) := by
      cases op with
      | update k c =>
        have hc : c ≠ "" := by simpa [opOk] using hops.1
        exact DynInv_update t h hc
      | log m =>
        by_cases hw : s.console.log = CSlot.wrapped
        · simp only [runOp, if_pos hw]
          exact DynInv_congr (interceptConsole_maps t s m).1
            (interceptConsole_maps t s m).2.1 h
        · simpa [runOp, hw] using h
      | start => exact h
      | stop => exact h
    exact ih hstep hops.2

end StabilityLemmas

/-- C3 counterexample: an update to a key whose stored content is the empty
string re-assigns its screen line — key 7 is assigned line 0 by
`update(7, "")`, and the later `update(7, "y")` rewrites it to line 1. -/
theorem screenLine_stable_counterexample :
    mget ((runOps ⟨24, some 80⟩ (dynInit (K := Nat)) [.start, .update 7 ""]).lineNumbers) 7 = some 0 ∧
    mget ((runOps ⟨24, some 80⟩ (dynInit (K := Nat)) [.start, .update 7 "", .update 7 "y"]).lineNumbers) 7 = some 1 :=
  ⟨by decide, by decide⟩

/-- C3 (amended): once a key holds a screen line and non-empty content,
every later sequence of updates with non-empty contents, intercepted log
calls, `start`s and `stop`s leaves the key's screen-line assignment
unchanged; only an update to a key whose stored content is the empty
string (which JS truthiness treats as absent) re-assigns a line. -/
theorem screenLine_stable {K : Type} [DecidableEq K] (t : Term)
    (s : DynState K) (k : K) (L : Nat) (p : String) (ops : List (DynOp K))
    (hL : mget s.lineNumbers k = some L)
    (hk : mget s.statusLines k = some p) (hp : p ≠ "")
    (hops : ops.all opOk = true) :
    mget (runOps t s ops).lineNumbers k = some L := by
  induction ops generalizing s p with
  | nil => exact hL
  | cons op ops ih =>
    rw [List.all_cons, Bool.and_eq_true] at hops
    cases op with
    | update k' c' =>
      have hc' : c' ≠ "" := by simpa [opOk] using hops.1
      obtain ⟨h1, h2⟩ := update_preserves_lineNumber t s hk hp k' c'
      obtain ⟨p', hp1, hp2⟩ := h2 hc'
      exact ih _ p' (h1.trans hL) hp1 hp2 hops.2
    | log m =>
      by_cases hw : s.console.log = CSlot.wrapped
      · have h' := interceptConsole_maps t s m
        show mget (runOps t (runOp t s (DynOp.log m)) ops).lineNumbers k = some L
        simp only [runOp, if_pos hw]
        refine ih _ p ?_ ?_ hp hops.2
        · rw [h'.2.1]
          exact hL
        · rw [h'.1]
          exact hk
      · show mget (runOps t (runOp t s (DynOp.log m)) ops).lineNumbers k = some L
        simp only [runOp, if_neg hw]
        exact ih _ p hL hk hp hops.2
    | start => exact ih _ p hL hk hp hops.2
    | stop => exact ih _ p hL hk hp hops.2

/-- C3 witness: key 1 keeps line 0 through updates to it and to another
key, a log call and a stop. -/
theorem screenLine_stable_witness :
    mget ((runOps ⟨24, some 80⟩
        (⟨[(1, "a")], [(1, 0)], false, Console.allWrapped⟩ : DynState Nat)
        [.update 1 "b", .log "m", .update 2 "c", .update 1 "d", .stop]).lineNumbers) 1 = some 0 :=
  screenLine_stable ⟨24, some 80⟩
    (⟨[(1, "a")], [(1, 0)], false, Console.allWrapped⟩ : DynState Nat) 1 0 "a"
    [.update 1 "b", .log "m", .update 2 "c", .update 1 "d", .stop]
    (by decide) (by decide) (by decide) (by decide)

/-- C4 counterexample: after `start`, `update(1, "")`, `update(1, "x")` the
line-number map holds the single value 1 while the store has one entry, so
the screen lines are not the gap-free set 0..numLines-1. -/
theorem lineNumbers_contiguous_counterexample :
    ¬ (((runOps ⟨24, some 80⟩ (dynInit (K := Nat))
          [.start, .update 1 "", .update 1 "x"]).lineNumbers.map Prod.snd).Perm
        (List.range (runOps ⟨24, some 80⟩ (dynInit (K := Nat))
          [.start, .update 1 "", .update 1 "x"]).statusLines.length)) := by
  decide

/-- C4 (amended): after every sequence of public operations from the
initial state in which every update content is non-empty, the multiset of
values of the key-to-screen-line map is exactly 0..numLines-1 (indeed the
values read 0, 1, … in insertion order); an update with empty content can
break contiguity via the truthiness bug witnessed by the counterexample. -/
theorem lineNumbers_contiguous {K : Type} [DecidableEq K] (t : Term)
    (ops : List (DynOp K)) (hops : ops.all opOk = true) :
    (((runOps t dynInit ops).lineNumbers.map Prod.snd)).Perm
      (List.range (runOps t dynInit ops).statusLines.length) := by
  have h0 : DynInv (dynInit : DynState K) := by
    refine ⟨rfl, rfl, ?_⟩
    intro q hq
    simp [dynInit] at hq
  have h := DynInv_runOps t h0 hops
  rw [h.2.1]

/-- C4 witness: a run with two fresh keys, a patch, a log burst and a stop
has line numbers forming exactly the range 0..1. -/
theorem lineNumbers_contiguous_witness :
    (((runOps ⟨24, some 80⟩ (dynInit (K := Nat))
        [.start, .update 3 "a", .update 9 "b", .log "zz", .update 3 "c", .stop]).lineNumbers.map Prod.snd)).Perm
      (List.range (runOps ⟨24, some 80⟩ (dynInit (K := Nat))
        [.start, .update 3 "a", .update 9 "b", .log "zz", .update 3 "c", .stop]).statusLines.length) :=
  lineNumbers_contiguous ⟨24, some 80⟩
    [.start, .update 3 "a", .update 9 "b", .log "zz", .update 3 "c", .stop] (by decide)

section OutputLemmas

variable {K : Type} [DecidableEq K]

theorem updatePatch_snd_of_dirty (t : Term) (s : DynState K) (k : K)
    (c p : String) (h : s.dirty = true) :
    (s.updatePatch t k c p).2 =
      (({ s with statusLines := mset s.statusLines k c } : DynState K).redrawAllLines t true).2
        ++ t.moveCursorToBottom := by
  simp [DynState.updatePatch, h]

theorem updateFresh_snd (t : Term) (s : DynState K) (k : K) (c : String) :
    (s.updateFresh t k c).2 =
      (if s.dirty then (s.redrawAllLines t true).2 else [])
        ++ t.moveCursorToBottom ++ [Out.newline]
        ++ ((⟨mset s.statusLines k c, mset s.lineNumbers k s.numLines, true,
              s.console⟩ : DynState K).redrawAllLines t false).2
        ++ t.moveCursorToBottom := by
  by_cases h : s.dirty <;>
    simp [DynState.updateFresh, DynState.redrawAllLines, DynState.numLines, h]

theorem jsSubstring_length_le (s : String) (a b : Nat) (h : a ≤ b) :
    (jsSubstring s a b).length ≤ b := by
  show ((s.data.drop (min (min a s.length) (min b s.length))).take
      (max (min a s.length) (min b s.length) - min (min a s.length) (min b s.length))).length ≤ b
  simp only [List.length_take, List.length_drop]
  omega

end OutputLemmas

/-- C5 counterexample: with the block dirty after an intercepted log, the
next `update` call whose content equals the stored content performs no
redraw at all (it emits no output) and leaves the dirty flag set. -/
theorem dirty_flag_counterexample :
    (runOps ⟨24, some 80⟩ (dynInit (K := Nat)) [.start, .update 1 "a", .log "x"]).dirty = true ∧
    DynState.update ⟨24, some 80⟩
        (runOps ⟨24, some 80⟩ (dynInit (K := Nat)) [.start, .update 1 "a", .log "x"]) 1 "a"
      = (runOps ⟨24, some 80⟩ (dynInit (K := Nat)) [.start, .update 1 "a", .log "x"], []) :=
  ⟨by decide, by decide⟩

/-- C5 (amended): while the block is clean an intercepted log call clears
every block line, sets the dirty flag and forwards; while dirty it only
forwards, so a burst of consecutive log calls clears once and transitions
once; the next `update` after the block became dirty performs a full
redraw (every entry with a line number is rewritten) and leaves the flag
`false` — except the identical-content no-op of the dynamic variant, which
returns unchanged (see the counterexample).  The fixed variant behaves the
same, with an unconditional redraw on the next in-range update. -/
theorem dirty_flag_protocol {K : Type} [DecidableEq K] (t : Term)
    (s : DynState K) (m : String) (ms : List String) (k : K) (c : String)
    (fs : FixedState) (i : Int) :
    (s.dirty = false →
      s.interceptConsole t m
        = ({ s with dirty := true }, s.clearLines t ++ s.moveCursorToTop t ++ [Out.forward m])) ∧
    (s.dirty = true → s.interceptConsole t m = (s, [Out.forward m])) ∧
    (s.dirty = false →
      (logsRun t s (m :: ms)).1 = { s with dirty := true } ∧
      (logsRun t s (m :: ms)).2
        = s.clearLines t ++ s.moveCursorToTop t ++ (m :: ms).map Out.forward) ∧
    (s.dirty = true → ¬ (mget s.statusLines k = some c ∧ c ≠ "") →
      (s.update t k c).1.dirty = false ∧
      ∀ k' L, mget (s.update t k c).1.lineNumbers k' = some L →
        Out.write (jsSubstring ((mget (s.update t k c).1.statusLines k').getD "") 0 (effWidth t - 1))
          ∈ (s.update t k c).2) ∧
    (fs.dirty = false →
      fs.interceptConsole t m = ({ fs with dirty := true }, fs.clearLines t ++ [Out.forward m])) ∧
    (fs.dirty = true → fs.interceptConsole t m = (fs, [Out.forward m])) ∧
    (fs.dirty = true → ¬ (i < 0 ∨ (fs.totalLines : Int) ≤ i) →
      (fs.update t i c).1.dirty = false) := by
  refine ⟨?_, ?_, ?_, ?_, ?_, ?_, ?_⟩
  · intro h
    simp [DynState.interceptConsole, h]
  · intro h
    simp [DynState.interceptConsole, h]
  · intro h
    have h1 : s.interceptConsole t m
        = ({ s with dirty := true }, s.clearLines t ++ s.moveCursorToTop t ++ [Out.forward m]) := by
      simp [DynState.interceptConsole, h]
    have h2 := logsRun_of_dirty t ({ s with dirty := true } : DynState K) rfl ms
    constructor <;> simp [logsRun, h1, h2, List.append_assoc]
  · intro hd hno
    rcases hm : mget s.statusLines k with _ | p
    · rw [update_eq_fresh t s c (Or.inl hm)]
      refine ⟨by rw [updateFresh_fst], ?_⟩
      intro k' L hL'
      rw [updateFresh_fst] at hL'
      have hmem := write_mem_redrawAllLines t
        (⟨mset s.statusLines k c, mset s.lineNumbers k s.numLines, true, s.console⟩ : DynState K)
        false (show mget (mset s.lineNumbers k s.numLines) k' = some L from hL')
      rw [updateFresh_fst, updateFresh_snd]
      exact List.mem_append.mpr (Or.inl (List.mem_append.mpr (Or.inr hmem)))
    · by_cases hp : p = ""
      · subst hp
        rw [update_eq_fresh t s c (Or.inr hm)]
        refine ⟨by rw [updateFresh_fst], ?_⟩
        intro k' L hL'
        rw [updateFresh_fst] at hL'
        have hmem := write_mem_redrawAllLines t
          (⟨mset s.statusLines k c, mset s.lineNumbers k s.numLines, true, s.console⟩ : DynState K)
          false (show mget (mset s.lineNumbers k s.numLines) k' = some L from hL')
        rw [updateFresh_fst, updateFresh_snd]
        exact List.mem_append.mpr (Or.inl (List.mem_append.mpr (Or.inr hmem)))
      · by_cases hpc : p = c
        · exact absurd ⟨hpc ▸ hm, hpc ▸ hp⟩ hno
        · rw [update_eq_patch t s hm hp hpc]
          refine ⟨by rw [updatePatch_fst], ?_⟩
          intro k' L hL'
          rw [updatePatch_fst] at hL'
          have hmem := write_mem_redrawAllLines t
            ({ s with statusLines := mset s.statusLines k c } : DynState K) true
            (show mget s.lineNumbers k' = some L from hL')
          rw [updatePatch_fst, updatePatch_snd_of_dirty t s k c p hd]
          exact List.mem_append.mpr (Or.inl hmem)
  · intro h
    simp [FixedState.interceptConsole, h]
  · intro h
    simp [FixedState.interceptConsole, h]
  · intro _ hr
    exact fixed_update_ok_dirty t fs c hr

/-- C5 witness: a dirty one-entry store updated with changed content comes
out clean. -/
theorem dirty_flag_protocol_witness :
    (DynState.update ⟨24, some 80⟩
        (⟨[(8, "old")], [(8, 0)], true, Console.allWrapped⟩ : DynState Nat) 8 "new").1.dirty = false :=
  ((dirty_flag_protocol ⟨24, some 80⟩
      (⟨[(8, "old")], [(8, 0)], true, Console.allWrapped⟩ : DynState Nat) "m" [] 8 "new"
      ⟨[], 1, false, Console.allOriginal⟩ 0).2.2.2.1 (by decide) (by decide)).1

set_option maxRecDepth 4096 in
/-- C8 counterexample: the rendering path can emit more than
`terminalWidth - 1` characters.  With width 80 and a 161-character stored
content sharing a 160-character common prefix with the new content, the
patch path calls JS `substring(160, 79)`, whose argument swap renders the
81 characters between indices 79 and 160. -/
theorem render_truncation_counterexample :
    ((DynState.update ⟨24, some 80⟩
        (⟨[(0, String.mk (List.replicate 160 'a' ++ ['x']))], [(0, 0)], false,
          Console.allOriginal⟩ : DynState Nat)
        0 (String.mk (List.replicate 160 'a' ++ ['y']))).2.any
      (fun o => match o with
        | Out.write w => decide (79 < w.length)
        | _ => false)) = true := by
  decide

/-- C8 (amended): `update` always stores the full untruncated content; the
line writer clears the line first and writes from the start when the
column offset is 0, and for a positive offset writes only the rendered
substring followed by an erase-to-end-of-line; the rendered text is
`content.substring(offset, width - 1)` with JS clamp-and-swap semantics,
so it is at most `width - 1` characters provided `offset ≤ width - 1`
(the counterexample shows the bound fails for larger offsets); width falls
back to 80 when the terminal's column count is unavailable. -/
theorem render_truncation {K : Type} [DecidableEq K] (t : Term)
    (s : DynState K) (k : K) (c : String) (off : Nat) :
    mget (s.update t k c).1.statusLines k = some c ∧
    s.writeStatusHere t k 0
      = [Out.clearLine, Out.write (jsSubstring ((mget s.statusLines k).getD "") 0 (effWidth t - 1))] ∧
    (0 < off → s.writeStatusHere t k off
      = [Out.write (jsSubstring ((mget s.statusLines k).getD "") off (effWidth t - 1)), Out.clearToEOL]) ∧
    (off ≤ effWidth t - 1 →
      (jsSubstring ((mget s.statusLines k).getD "") off (effWidth t - 1)).length ≤ effWidth t - 1) ∧
    (t.columns = none → effWidth t = 80) := by
  refine ⟨mget_update_statusLines_self t s k c, ?_, ?_, ?_, ?_⟩
  · simp [DynState.writeStatusHere]
  · intro h
    simp [DynState.writeStatusHere, h, Nat.pos_iff_ne_zero.mp h]
  · intro h
    exact jsSubstring_length_le _ _ _ h
  · intro h
    simp [effWidth, h]

/-- C8 witness: with width 80, a positive offset renders the substring and
an erase-to-end-of-line. -/
theorem render_truncation_witness :
    DynState.writeStatusHere ⟨24, some 80⟩
        (⟨[(2, "abcdef")], [(2, 0)], false, Console.allOriginal⟩ : DynState Nat) 2 3
      = [Out.write (jsSubstring "abcdef" 3 79), Out.clearToEOL] :=
  (render_truncation ⟨24, some 80⟩
      (⟨[(2, "abcdef")], [(2, 0)], false, Console.allOriginal⟩ : DynState Nat) 2 "zz" 3).2.2.1
    (by decide)

section ScreenLemmas

theorem Screen.eq_of_parts {a b : Screen} (h1 : a.lines = b.lines)
    (h2 : a.curRow = b.curRow) (h3 : a.curCol = b.curCol) : a = b := by
  cases a
  cases b
  simp_all

theorem applyOuts_append (R : Nat) (scr : Screen) (l1 l2 : List Out) :
    applyOuts R scr (l1 ++ l2) = applyOuts R (applyOuts R scr l1) l2 :=
  List.foldl_append ..

theorem applyOuts_newlines (R : Nat) (k : Nat) (scr : Screen)
    (h : scr.curRow + k ≤ (R : Int)) :
    applyOuts R scr (List.replicate k Out.newline) =
      if k = 0 then scr else { scr with curRow := scr.curRow + k, curCol := 0 } := by
  induction k generalizing scr with
  | zero => simp [applyOuts]
  | succ k ih =>
    rw [List.replicate_succ]
    have hlt : scr.curRow < (R : Int) := by push_cast at h; omega
    have hstep : applyOut R scr Out.newline
        = { scr with curRow := scr.curRow + 1, curCol := 0 } := by
      simp [applyOut, Screen.doNewline, not_le.mpr hlt]
    show applyOuts R (applyOut R scr Out.newline) (List.replicate k Out.newline) = _
    rw [hstep, ih ({ scr with curRow := scr.curRow + 1, curCol := 0 })
      (by simp; push_cast at h ⊢; omega)]
    by_cases hk : k = 0
    · subst hk
      simp
    · rw [if_neg hk, if_neg (Nat.succ_ne_zero k)]
      refine Screen.eq_of_parts rfl ?_ rfl
      simp
      ring

theorem applyOuts_draw_step (R : Nat) (scr : Screen) (row : Int) (c : String) :
    applyOuts R scr [Out.moveCursor row 1, Out.clearLine, Out.write c] =
      { lines := fun r => if r = row then c.data else scr.lines r,
        curRow := row, curCol := c.length } := by
  show applyOut R (applyOut R (applyOut R scr (Out.moveCursor row 1)) Out.clearLine)
      (Out.write c) = _
  simp only [applyOut, Screen.doWrite]
  refine Screen.eq_of_parts ?_ rfl (by simp)
  funext r
  by_cases hr : r = row
  · subst hr
    simp [writeChars]
  · simp [hr]

theorem fixedDrawOuts_succ (t : Term) (s : FixedState) (n : Nat) :
    fixedDrawOuts t s (n + 1) = fixedDrawOuts t s n
      ++ [Out.moveCursor ((t.rows : Int) - n - 1) 1, Out.clearLine,
          Out.write (fixedTrunc t s n)] := by
  unfold fixedDrawOuts
  rw [List.range_succ, List.flatMap_append]
  simp [Term.moveCursorToLine, FixedState.writeStatusLine]

theorem applyOuts_drawOuts (t : Term) (s : FixedState) (n : Nat) (scr : Screen) :
    (∀ i : Nat, i < n →
      (applyOuts t.rows scr (fixedDrawOuts t s n)).lines ((t.rows : Int) - i - 1)
        = (fixedTrunc t s i).data) ∧
    (0 < n →
      (applyOuts t.rows scr (fixedDrawOuts t s n)).curRow = (t.rows : Int) - n ∧
      (applyOuts t.rows scr (fixedDrawOuts t s n)).curCol = (fixedTrunc t s (n - 1)).length) := by
  induction n generalizing scr with
  | zero => exact ⟨fun i hi => absurd hi (Nat.not_lt_zero i), fun h => absurd h (lt_irrefl 0)⟩
  | succ n ih =>
    rw [fixedDrawOuts_succ, applyOuts_append, applyOuts_draw_step]
    refine ⟨?_, fun _ => ⟨?_, ?_⟩⟩
    · intro i hi
      by_cases he : i = n
      · subst he
        simp
      · have hi' : i < n := by omega
        have hne : ((t.rows : Int) - i - 1) ≠ ((t.rows : Int) - n - 1) := by
          intro hc
          apply he
          omega
        simp only [hne, if_neg]
        exact (ih scr).1 i hi'
    · simp only []
      push_cast
      ring
    · simp

theorem applyOuts_drawOuts_pres (t : Term) (s : FixedState) (n : Nat) (scr : Screen)
    (h : ∀ i : Nat, i < n →
      scr.lines ((t.rows : Int) - i - 1) = (fixedTrunc t s i).data) :
    (applyOuts t.rows scr (fixedDrawOuts t s n)).lines = scr.lines ∧
    (0 < n →
      (applyOuts t.rows scr (fixedDrawOuts t s n)).curRow = (t.rows : Int) - n ∧
      (applyOuts t.rows scr (fixedDrawOuts t s n)).curCol = (fixedTrunc t s (n - 1)).length) := by
  induction n generalizing scr with
  | zero => exact ⟨rfl, fun hc => absurd hc (lt_irrefl 0)⟩
  | succ n ih =>
    have hprev : (applyOuts t.rows scr (fixedDrawOuts t s n)).lines = scr.lines :=
      (ih scr (fun i hi => h i (by omega))).1
    rw [fixedDrawOuts_succ, applyOuts_append, applyOuts_draw_step]
    refine ⟨?_, fun _ => ⟨?_, ?_⟩⟩
    · funext r
      simp only [hprev]
      by_cases hr : r = (t.rows : Int) - n - 1
      · subst hr
        simp only [if_pos rfl]
        exact (h n (by omega)).symm
      · simp [hr]
    · simp only []
      push_cast
      ring
    · simp

end ScreenLemmas

theorem fixed_redrawAll_idem (t : Term) (s : FixedState) (scr : Screen) :
    applyOuts t.rows scr
        ((s.redrawAllLines t).2 ++ ((s.redrawAllLines t).1.redrawAllLines t).2)
      = applyOuts t.rows scr (s.redrawAllLines t).2 ∧
    ((s.redrawAllLines t).1.redrawAllLines t).1 = (s.redrawAllLines t).1 := by
  have hout : ((s.redrawAllLines t).1.redrawAllLines t).2 = (s.redrawAllLines t).2 := rfl
  refine ⟨?_, rfl⟩
  rw [hout, applyOuts_append]
  rcases Nat.eq_zero_or_pos s.totalLines with hn | hn
  · simp [FixedState.redrawAllLines, fixedDrawOuts, hn, applyOuts]
  · have hred : (s.redrawAllLines t).2
        = List.replicate s.totalLines Out.newline ++ fixedDrawOuts t s s.totalLines := rfl
    set w := applyOuts t.rows scr (s.redrawAllLines t).2 with hw
    have hw2 : w = applyOuts t.rows
        (applyOuts t.rows scr (List.replicate s.totalLines Out.newline))
        (fixedDrawOuts t s s.totalLines) := by
      rw [hw, hred, applyOuts_append]
    have hL5 := applyOuts_drawOuts t s s.totalLines
      (applyOuts t.rows scr (List.replicate s.totalLines Out.newline))
    rw [← hw2] at hL5
    obtain ⟨hwl, hwc⟩ := hL5
    obtain ⟨hwr, hwcc⟩ := hwc hn
    rw [hred, applyOuts_append]
    rw [applyOuts_newlines t.rows s.totalLines w (by rw [hwr]; omega)]
    rw [if_neg (by omega : s.totalLines ≠ 0)]
    have hpres := applyOuts_drawOuts_pres t s s.totalLines
      ({ w with curRow := w.curRow + (s.totalLines : Int), curCol := 0 })
      (fun i hi => hwl i hi)
    obtain ⟨hl, hc⟩ := hpres
    obtain ⟨hr2, hc2⟩ := hc hn
    refine Screen.eq_of_parts hl ?_ ?_
    · rw [hr2]
      exact hwr.symm
    · rw [hc2]
      exact hwcc.symm

section DynScreenLemmas

variable {K : Type} [DecidableEq K]

theorem dyn_redraw_prefix (t : Term) (s : DynState K) (scr : Screen) :
    applyOuts t.rows scr (s.moveCursorToTop t ++ List.replicate s.numLines Out.newline)
      = ⟨scr.lines, (t.rows : Int), 0⟩ := by
  rw [applyOuts_append]
  have hmv : applyOuts t.rows scr (s.moveCursorToTop t)
      = { scr with curRow := (t.rows : Int) - ((s.numLines : Int) - 1) - 1, curCol := 0 } := by
    simp [DynState.moveCursorToTop, Term.moveCursorToLine, applyOuts, applyOut]
  rw [hmv, applyOuts_newlines _ _ _ (by push_cast; omega)]
  by_cases h : s.numLines = 0
  · rw [if_pos h]
    refine Screen.eq_of_parts rfl ?_ rfl
    show (t.rows : Int) - ((s.numLines : Int) - 1) - 1 = (t.rows : Int)
    rw [h]
    norm_num
  · rw [if_neg h]
    refine Screen.eq_of_parts rfl ?_ rfl
    show ((t.rows : Int) - ((s.numLines : Int) - 1) - 1) + (s.numLines : Int) = (t.rows : Int)
    ring

theorem dynDraws_congr (t : Term) (s : DynState K) (U₁ U₂ : Int → List Char)
    (ks : List K) :
    ∀ (w₁ w₂ : Screen), w₁.curRow = w₂.curRow → w₁.curCol = w₂.curCol →
    (∀ r : Int, w₁.lines r = w₂.lines r ∨ (w₁.lines r = U₁ r ∧ w₂.lines r = U₂ r)) →
    (applyOuts t.rows w₁ (ks.flatMap (fun k => s.updateSingleLine t k 0))).curRow
      = (applyOuts t.rows w₂ (ks.flatMap (fun k => s.updateSingleLine t k 0))).curRow ∧
    (applyOuts t.rows w₁ (ks.flatMap (fun k => s.updateSingleLine t k 0))).curCol
      = (applyOuts t.rows w₂ (ks.flatMap (fun k => s.updateSingleLine t k 0))).curCol ∧
    (∀ r : Int,
      (applyOuts t.rows w₁ (ks.flatMap (fun k => s.updateSingleLine t k 0))).lines r
        = (applyOuts t.rows w₂ (ks.flatMap (fun k => s.updateSingleLine t k 0))).lines r ∨
      ((applyOuts t.rows w₁ (ks.flatMap (fun k => s.updateSingleLine t k 0))).lines r = U₁ r ∧
       (applyOuts t.rows w₂ (ks.flatMap (fun k => s.updateSingleLine t k 0))).lines r = U₂ r)) := by
  induction ks with
  | nil =>
    intro w₁ w₂ h1 h2 h3
    exact ⟨h1, h2, h3⟩
  | cons k ks ih =>
    intro w₁ w₂ h1 h2 h3
    rw [List.flatMap_cons, applyOuts_append, applyOuts_append]
    rcases hk : mget s.lineNumbers k with _ | L
    · have hnil : s.updateSingleLine t k 0 = [] := by
        simp [DynState.updateSingleLine, hk]
      rw [hnil]
      exact ih w₁ w₂ h1 h2 h3
    · have hstep : s.updateSingleLine t k 0
          = [Out.moveCursor ((t.rows : Int) - L - 1) 1, Out.clearLine,
             Out.write (jsSubstring ((mget s.statusLines k).getD "") 0 (effWidth t - 1))] := by
        simp [DynState.updateSingleLine, hk, DynState.writeStatusHere, Term.moveCursorToLine]
      rw [hstep, applyOuts_draw_step, applyOuts_draw_step]
      apply ih
      · rfl
      · rfl
      · intro r
        by_cases hr : r = (t.rows : Int) - L - 1
        · left
          simp [hr]
        · rcases h3 r with h | h
          · left
            simp [hr, h]
          · right
            exact ⟨by simp [hr, h.1], by simp [hr, h.2]⟩

theorem dyn_redrawAll_idem (t : Term) (d : DynState K) (scr : Screen) :
    applyOuts t.rows scr
        ((d.redrawAllLines t false).2 ++ ((d.redrawAllLines t false).1.redrawAllLines t false).2)
      = applyOuts t.rows scr (d.redrawAllLines t false).2 ∧
    ((d.redrawAllLines t false).1.redrawAllLines t false).1 = (d.redrawAllLines t false).1 := by
  have hout : ((d.redrawAllLines t false).1.redrawAllLines t false).2
      = (d.redrawAllLines t false).2 := rfl
  refine ⟨?_, rfl⟩
  rw [hout, applyOuts_append]
  have hsplit : (d.redrawAllLines t false).2
      = (d.moveCursorToTop t ++ List.replicate d.numLines Out.newline)
        ++ d.keys.flatMap (fun k => d.updateSingleLine t k 0) := by
    simp [DynState.redrawAllLines, List.append_assoc]
  set w := applyOuts t.rows scr (d.redrawAllLines t false).2 with hw
  have hw1 : w = applyOuts t.rows (⟨scr.lines, (t.rows : Int), 0⟩ : Screen)
      (d.keys.flatMap (fun k => d.updateSingleLine t k 0)) := by
    rw [hw, hsplit, applyOuts_append, dyn_redraw_prefix]
  have hcongr := dynDraws_congr t d scr.lines w.lines d.keys
    (⟨scr.lines, (t.rows : Int), 0⟩ : Screen) (⟨w.lines, (t.rows : Int), 0⟩ : Screen)
    rfl rfl (fun r => Or.inr ⟨rfl, rfl⟩)
  rw [hsplit, applyOuts_append, dyn_redraw_prefix]
  obtain ⟨hcr, hcc, hlr⟩ := hcongr
  rw [← hw1] at hcr hcc
  refine Screen.eq_of_parts ?_ hcr.symm hcc.symm
  funext r
  rcases hlr r with h | h
  · rw [← hw1] at h
    exact h.symm
  · exact h.2

end DynScreenLemmas

/-- C7: the full redraw is idempotent in both variants — starting from any
screen, running the redraw twice with unchanged entries yields exactly the
terminal image (every row, including those above the block, and the
cursor) of running it once, and the same store state.  For the dynamic
variant this is the cursor-independent mode (`fromThisSpot = false`). -/
theorem redrawAll_idempotent {K : Type} [DecidableEq K] (t : Term)
    (s : FixedState) (d : DynState K) (scr₁ scr₂ : Screen) :
    (applyOuts t.rows scr₁
        ((s.redrawAllLines t).2 ++ ((s.redrawAllLines t).1.redrawAllLines t).2)
      = applyOuts t.rows scr₁ (s.redrawAllLines t).2 ∧
     ((s.redrawAllLines t).1.redrawAllLines t).1 = (s.redrawAllLines t).1) ∧
    (applyOuts t.rows scr₂
        ((d.redrawAllLines t false).2 ++ ((d.redrawAllLines t false).1.redrawAllLines t false).2)
      = applyOuts t.rows scr₂ (d.redrawAllLines t false).2 ∧
     ((d.redrawAllLines t false).1.redrawAllLines t false).1 = (d.redrawAllLines t false).1) :=
  ⟨fixed_redrawAll_idem t s scr₁, dyn_redrawAll_idem t d scr₂⟩
